import Mathlib

/-!
Verification of the `TelemetryJSONFilePingStore` component (a durable,
capacity-bounded, file-per-record ping store).  The store persists each
record ("ping") as one file in a root directory; the filename is a
reversible encoding of the record's integer id.  The repository ships the
unit tests of the store (`TestTelemetryJSONFilePingStore.java`); the store
class itself is absent, so its operations are modelled from the spec and
checked against the behaviour the tests pin down.

The embedding: a directory is a list of files, a file is a name (list of
characters) together with a structured (JSON-like) content.  Filenames are
lists of characters; the id pattern of the tests,
`[^0-9]*([0-9]+)[^0-9]*` with full-match semantics, is embedded as an
executable function on lists of characters.
-/

/-- A minimal model of a JSON document: enough structure to express the
stored file contents (an object with a destination-path string field and a
payload sub-document field). -/
inductive Json where
  | null : Json
  | str : String → Json
  | num : Int → Json
  | obj : List (String × Json) → Json

/-- Field lookup in a JSON object (first binding wins); `none` on
non-objects and missing keys. -/
def Json.get : Json → String → Option Json
  | .obj fields, k => fields.lookup k
  | _, _ => none

/-- String-valued field lookup in a JSON object. -/
def Json.getStr (j : Json) (k : String) : Option String :=
  match j.get k with
  | some (.str s) => some s
  | _ => none

/-- The numeric value of a decimal digit character (`Integer.parseInt`
works digit by digit this way). -/
def charToDigit (c : Char) : Nat := c.toNat - 48

/-- Decimal parse of a list of digit characters, most significant first,
as `Integer.parseInt` computes it. -/
def parseNat (cs : List Char) : Nat :=
  cs.foldl (fun acc c => 10 * acc + charToDigit c) 0

/-- Fuel-driven decimal rendering (the fuel only bounds the recursion
depth; any fuel above the number of digits gives the same answer). -/
def natToCharsAux (fuel : Nat) (n : Nat) : List Char :=
  match fuel with
  | 0 => []
  | fuel + 1 =>
    if n < 10 then [Nat.digitChar n]
    else natToCharsAux fuel (n / 10) ++ [Nat.digitChar (n % 10)]

/-- Decimal rendering of a natural number, most significant digit first,
as Java's `%d` / `Integer.toString` renders a non-negative int. -/
def natToChars (n : Nat) : List Char := natToCharsAux (n + 1) n

theorem natToCharsAux_irrel (f₁ : Nat) :
    ∀ f₂ n, n < f₁ → n < f₂ → natToCharsAux f₁ n = natToCharsAux f₂ n := by
  induction f₁ with
  | zero => intro f₂ n h₁ _; omega
  | succ f₁ ih =>
    intro f₂ n h₁ h₂
    cases f₂ with
    | zero => omega
    | succ f₂ =>
      by_cases h : n < 10
      · simp [natToCharsAux, h]
      · have hdiv : n / 10 < n := Nat.div_lt_self (by omega) (by omega)
        simp only [natToCharsAux, if_neg h]
        rw [ih f₂ (n / 10) (by omega) (by omega)]

theorem natToChars_eq_small {n : Nat} (h : n < 10) :
    natToChars n = [Nat.digitChar n] := by
  simp [natToChars, natToCharsAux, h]

theorem natToChars_eq_large {n : Nat} (h : ¬ n < 10) :
    natToChars n = natToChars (n / 10) ++ [Nat.digitChar (n % 10)] := by
  have hdiv : n / 10 < n := Nat.div_lt_self (by omega) (by omega)
  show natToCharsAux (n + 1) n = _
  simp only [natToCharsAux, if_neg h]
  rw [natToCharsAux_irrel n (n / 10 + 1) (n / 10) (by omega) (by omega)]
  rfl

theorem charToDigit_digitChar {d : Nat} (h : d < 10) :
    charToDigit (Nat.digitChar d) = d := by
  interval_cases d <;> decide

theorem digitChar_isDigit {d : Nat} (h : d < 10) :
    (Nat.digitChar d).isDigit = true := by
  interval_cases d <;> decide

theorem parseNat_append_singleton (cs : List Char) (c : Char) :
    parseNat (cs ++ [c]) = 10 * parseNat cs + charToDigit c := by
  simp [parseNat, List.foldl_append]

theorem parseNat_natToChars (n : Nat) : parseNat (natToChars n) = n := by
  induction n using Nat.strong_induction_on with
  | _ n ih =>
    by_cases h : n < 10
    · rw [natToChars_eq_small h]
      simp [parseNat, charToDigit_digitChar h]
    · rw [natToChars_eq_large h, parseNat_append_singleton]
      rw [ih (n / 10) (Nat.div_lt_self (by omega) (by omega))]
      have hmod : n % 10 < 10 := Nat.mod_lt _ (by omega)
      rw [charToDigit_digitChar hmod]
      omega

theorem natToChars_all_digit (n : Nat) :
    ∀ c ∈ natToChars n, c.isDigit = true := by
  induction n using Nat.strong_induction_on with
  | _ n ih =>
    by_cases h : n < 10
    · rw [natToChars_eq_small h]
      intro c hc
      simp at hc
      subst hc
      exact digitChar_isDigit h
    · rw [natToChars_eq_large h]
      intro c hc
      rcases List.mem_append.mp hc with hc | hc
      · exact ih (n / 10) (Nat.div_lt_self (by omega) (by omega)) c hc
      · simp at hc
        subst hc
        exact digitChar_isDigit (Nat.mod_lt _ (by omega))

theorem natToChars_ne_nil (n : Nat) : natToChars n ≠ [] := by
  by_cases h : n < 10
  · rw [natToChars_eq_small h]
    simp
  · rw [natToChars_eq_large h]
    simp

theorem takeWhile_append_of_all {α : Type} (p : α → Bool) (l₁ l₂ : List α)
    (h : ∀ a ∈ l₁, p a = true) :
    (l₁ ++ l₂).takeWhile p = l₁ ++ l₂.takeWhile p := by
  induction l₁ with
  | nil => simp
  | cons a l ih =>
    have ha : p a = true := h a (by simp)
    simp [List.takeWhile_cons, ha]
    exact ih (fun b hb => h b (by simp [hb]))

theorem dropWhile_append_of_all {α : Type} (p : α → Bool) (l₁ l₂ : List α)
    (h : ∀ a ∈ l₁, p a = true) :
    (l₁ ++ l₂).dropWhile p = l₂.dropWhile p := by
  induction l₁ with
  | nil => simp
  | cons a l ih =>
    have ha : p a = true := h a (by simp)
    simp [List.dropWhile_cons, ha]
    exact ih (fun b hb => h b (by simp [hb]))

theorem takeWhile_eq_nil_of_all {α : Type} (p : α → Bool) (l : List α)
    (h : ∀ a ∈ l, p a = false) : l.takeWhile p = [] := by
  cases l with
  | nil => rfl
  | cons a t => simp [List.takeWhile_cons, h a (by simp)]

theorem dropWhile_eq_self_of_head {α : Type} (p : α → Bool) (a : α)
    (t : List α) (h : p a = false) : (a :: t).dropWhile p = a :: t := by
  simp [List.dropWhile_cons, h]

/-- The constant part of the ping filename before the decimal id.
Modelled from the spec: the store class is absent from the sources; the
spec requires a deterministic filename encoding whose only digits are the
decimal id, so the surrounding constant parts are digit-free. -/
def pingFilePrefix : List Char := ['p', 'i', 'n', 'g', '-']

/-- The constant part of the ping filename after the decimal id (the store
serializes records as JSON files).  Modelled from the spec, as for
`pingFilePrefix`. -/
def pingFileSuffix : List Char := ['.', 'j', 's', 'o', 'n']

/-- Modelled from the spec: `getPingFile(id)` produces the file for `id`;
its name embeds the decimal `id` as an extractable numeric substring,
unambiguous for the pattern "non-digits, digits, non-digits". -/
def getPingFile (id : Nat) : List Char :=
  pingFilePrefix ++ natToChars id ++ pingFileSuffix

/-- The one-capture-group pattern `[^0-9]*([0-9]+)[^0-9]*` of the tests
(`ID_PATTERN`), with `Matcher.matches` (whole-string) semantics: the name
matches iff it decomposes as non-digits, a non-empty digit run, and
non-digits, and the capture group is that digit run. -/
def idPatternCapture (s : List Char) : Option (List Char) :=
  let rest := s.dropWhile (fun c => !c.isDigit)
  let d := rest.takeWhile (fun c => c.isDigit)
  let b := rest.dropWhile (fun c => c.isDigit)
  if !d.isEmpty && b.all (fun c => !c.isDigit) then some d else none

/-- Modelled from the spec: `idFromFilename` / `getIDFromFilename`
recovers the id as the number captured by the pattern; `none` models the
failure on a name the pattern does not match. -/
def getIDFromFilename (name : List Char) : Option Nat :=
  (idPatternCapture name).map parseNat

theorem idPatternCapture_encode (pre d suf : List Char)
    (hpre : ∀ a ∈ pre, a.isDigit = false)
    (hd : ∀ a ∈ d, a.isDigit = true)
    (hsuf : ∀ a ∈ suf, a.isDigit = false)
    (hne : d ≠ []) :
    idPatternCapture (pre ++ d ++ suf) = some d := by
  obtain ⟨c, cs, hdc⟩ : ∃ c cs, d = c :: cs := by
    cases d with
    | nil => exact absurd rfl hne
    | cons c cs => exact ⟨c, cs, rfl⟩
  have hcdig : c.isDigit = true := hd c (by simp [hdc])
  have hrest : (pre ++ d ++ suf).dropWhile (fun c => !c.isDigit) = d ++ suf := by
    rw [List.append_assoc,
      dropWhile_append_of_all _ pre _ (fun a ha => by simp [hpre a ha]), hdc]
    exact dropWhile_eq_self_of_head _ _ _ (by simp [hcdig])
  have htake : (d ++ suf).takeWhile (fun c => c.isDigit) = d := by
    rw [takeWhile_append_of_all _ d _ hd,
      takeWhile_eq_nil_of_all _ suf hsuf, List.append_nil]
  have hdrop : (d ++ suf).dropWhile (fun c => c.isDigit) = suf := by
    rw [dropWhile_append_of_all _ d _ hd]
    cases suf with
    | nil => rfl
    | cons a t => exact dropWhile_eq_self_of_head _ _ _ (hsuf a (by simp))
  unfold idPatternCapture
  simp only [hrest, htake, hdrop]
  have hempty : d.isEmpty = false := by
    simp [hdc]
  have hball : suf.all (fun c => !c.isDigit) = true := by
    simp only [List.all_eq_true]
    intro a ha
    simp [hsuf a ha]
  simp [hempty, hball]

theorem getID_getPingFile (id : Nat) :
    getIDFromFilename (getPingFile id) = some id := by
  unfold getIDFromFilename getPingFile
  rw [idPatternCapture_encode pingFilePrefix (natToChars id) pingFileSuffix
    (by decide) (natToChars_all_digit id) (by decide) (natToChars_ne_nil id)]
  simp [parseNat_natToChars]

theorem getPingFile_injective {a b : Nat} (h : getPingFile a = getPingFile b) :
    a = b := by
  have ha := getID_getPingFile a
  have hb := getID_getPingFile b
  rw [h, hb] at ha
  exact (Option.some.inj ha).symm

/-- A ping: a destination URL path, a payload document, and the
caller-assigned unique id (`TelemetryPing(urlPath, payload, uniqueID)` as
the tests construct it). -/
structure TelemetryPing where
  urlPath : String
  payload : Json
  uniqueID : Nat

/-- Modelled from the spec: the JSON key of the destination-path field of
a stored file (`TelemetryJSONFilePingStore.KEY_URL_PATH`). -/
def KEY_URL_PATH : String := "url"

/-- Modelled from the spec: the JSON key of the payload field of a stored
file (`TelemetryJSONFilePingStore.KEY_PAYLOAD`). -/
def KEY_PAYLOAD : String := "payload"

/-- One file of the store's root directory: a filename and the structured
document its text contents encode. -/
structure StoredFile where
  name : List Char
  content : Json

/-- The store's observable state is the contents of its root directory: a
list of files.  The store keeps no other state. -/
abbrev StoreState := List StoredFile

/-- The structured document written for a ping: an object with the
destination path under `KEY_URL_PATH` and the payload under
`KEY_PAYLOAD` (as `writeTestPingsToStore` builds it in the tests). -/
def pingFileContents (ping : TelemetryPing) : Json :=
  .obj [(KEY_URL_PATH, .str ping.urlPath), (KEY_PAYLOAD, ping.payload)]

/-- Writing a file into a directory: replaces any file of the same name
(a path names at most one file), otherwise adds a new file. -/
def putFile (name : List Char) (content : Json) (s : StoreState) : StoreState :=
  s.filter (fun f => f.name != name) ++ [⟨name, content⟩]

/-- Modelled from the spec: `storePing(ping)` atomically creates one file,
named by the encoding of the ping's id, containing the destination path
and the payload. -/
def storePing (ping : TelemetryPing) (s : StoreState) : StoreState :=
  putFile (getPingFile ping.uniqueID) (pingFileContents ping) s

/-- Reading one directory entry back as a ping: the name must match the
id encoding and the contents must carry the two expected fields; `none`
models the skip of a file that does not parse. -/
def readPing (f : StoredFile) : Option TelemetryPing :=
  match getIDFromFilename f.name, f.content.getStr KEY_URL_PATH,
      f.content.get KEY_PAYLOAD with
  | some id, some url, some payload => some ⟨url, payload, id⟩
  | _, _, _ => none

/-- Modelled from the spec: `getAllPings()` enumerates the directory and
returns one record per valid file, skipping files that do not parse. -/
def getAllPings (s : StoreState) : List TelemetryPing := s.filterMap readPing

/-- The ids of the records currently stored: the ids decoded from the
filenames that match the encoding. -/
def storeIDs (s : StoreState) : List Nat :=
  s.filterMap (fun f => getIDFromFilename f.name)

/-- Modelled from the spec: `onUploadAttemptComplete(succeededIDs)`
deletes the files whose decoded id is a member of `succeededIDs`; ids with
no stored record are silently ignored, other records are untouched. -/
def onUploadAttemptComplete (succeededIDs : List Nat) (s : StoreState) :
    StoreState :=
  s.filter (fun f =>
    match getIDFromFilename f.name with
    | some id => !(succeededIDs.contains id)
    | none => true)

/-- Modelled from the spec: the capacity bound `MAX_PING_COUNT` enforced
by pruning (a fixed constant of the store). -/
def MAX_PING_COUNT : Nat := 40

/-- Modelled from the spec: `maybePrunePings`: if the record count is at
most `maxCount`, a no-op; otherwise delete the `count - maxCount` records
with the smallest ids. -/
def maybePrunePings (maxCount : Nat) (s : StoreState) : StoreState :=
  let ids := storeIDs s
  if ids.length ≤ maxCount then s
  else
    let toRemove := (ids.insertionSort (· ≤ ·)).take (ids.length - maxCount)
    s.filter (fun f =>
      match getIDFromFilename f.name with
      | some id => !(toRemove.contains id)
      | none => true)

theorem contains_iff {l : List Nat} {a : Nat} : l.contains a = true ↔ a ∈ l :=
  List.elem_iff

theorem storeIDs_filter_decode (p : Nat → Bool) (s : StoreState) :
    storeIDs (s.filter (fun f =>
      match getIDFromFilename f.name with
      | some id => p id
      | none => true)) = (storeIDs s).filter p := by
  induction s with
  | nil => rfl
  | cons f t ih =>
    simp only [storeIDs] at ih
    simp only [List.filter_cons]
    cases h : getIDFromFilename f.name with
    | none =>
      simp only [h]
      rw [if_pos trivial]
      simp only [storeIDs, List.filterMap_cons, h]
      exact ih
    | some i =>
      simp only [h]
      by_cases hp : p i = true
      · rw [if_pos hp]
        simp only [storeIDs, List.filterMap_cons, h]
        rw [ih]
        simp [List.filter_cons, hp]
      · rw [if_neg hp]
        simp only [storeIDs, List.filterMap_cons, h]
        rw [ih]
        have hp2 : p i = false := by simpa using hp
        simp [List.filter_cons, hp2]

theorem mem_storeIDs {s : StoreState} {i : Nat} :
    i ∈ storeIDs s ↔ ∃ f ∈ s, getIDFromFilename f.name = some i := by
  simp [storeIDs, List.mem_filterMap]

theorem storeIDs_onUploadAttemptComplete (succeededIDs : List Nat)
    (s : StoreState) :
    storeIDs (onUploadAttemptComplete succeededIDs s) =
      (storeIDs s).filter (fun i => !(succeededIDs.contains i)) :=
  storeIDs_filter_decode _ s

theorem mem_onUploadAttemptComplete {succ : List Nat} {s : StoreState}
    {f : StoredFile} :
    f ∈ onUploadAttemptComplete succ s ↔ f ∈ s ∧
      (match getIDFromFilename f.name with
       | some i => !(succ.contains i)
       | none => true) = true :=
  List.mem_filter

theorem contains_eq_false_of_not_mem {l : List Nat} {a : Nat} (h : a ∉ l) :
    l.contains a = false := by
  cases hc : l.contains a with
  | false => rfl
  | true => exact absurd (contains_iff.mp hc) h

/-- A file of the store holding the record `(id, url, payload)`, named by
the id encoding, as `writeTestPingsToStore` produces it. -/
def mkFile (id : Nat) (url : String) (payload : Json) : StoredFile :=
  ⟨getPingFile id, pingFileContents ⟨url, payload, id⟩⟩

/-- C1: for every legal id, decoding the filename produced by the encoder
yields the same id back (`idFromFilename(getPingFile(id).getName()) = id`),
and the produced filename embeds the decimal id as the single number
extracted by the one-capture-group pattern "non-digits, digits,
non-digits". -/
theorem storePing_filename_roundtrip (id : Nat) :
    getIDFromFilename (getPingFile id) = some id ∧
    idPatternCapture (getPingFile id) = some (natToChars id) := by
  constructor
  · exact getID_getPingFile id
  · unfold getPingFile
    exact idPatternCapture_encode pingFilePrefix (natToChars id)
      pingFileSuffix (by decide) (natToChars_all_digit id) (by decide)
      (natToChars_ne_nil id)

/-- C5: for every store whose current record count is at most `maxCount`,
`maybePrunePings` is a no-op: the set of stored files is unchanged by the
call. -/
theorem maybePrunePings_noop_at_or_below_max (maxCount : Nat)
    (s : StoreState) (h : (storeIDs s).length ≤ maxCount) :
    maybePrunePings maxCount s = s := by
  unfold maybePrunePings
  simp [h]

/-- C5 witness: a store with one record pruned at capacity 1 is unchanged. -/
theorem maybePrunePings_noop_at_or_below_max_witness :
    (storeIDs [mkFile 3 "server" Json.null]).length ≤ 1 ∧
    maybePrunePings 1 [mkFile 3 "server" Json.null] =
      [mkFile 3 "server" Json.null] :=
  ⟨by decide, maybePrunePings_noop_at_or_below_max 1 _ (by decide)⟩

/-- C6: for every set of acknowledged ids containing an id with no stored
record, `onUploadAttemptComplete` silently ignores that id (removing it
from the acknowledged set gives the same result, and the operation is a
total function, so no error is raised), and the records whose ids are not
acknowledged are unaffected. -/
theorem onUploadAttemptComplete_ignores_absent_ids
    (succeededIDs : List Nat) (s : StoreState) (x : Nat)
    (hx : x ∈ succeededIDs) (habs : x ∉ storeIDs s) :
    onUploadAttemptComplete succeededIDs s =
      onUploadAttemptComplete (succeededIDs.filter (fun i => i != x)) s ∧
    (∀ f ∈ s, ∀ i, getIDFromFilename f.name = some i →
      i ∉ succeededIDs → f ∈ onUploadAttemptComplete succeededIDs s) := by
  constructor
  · unfold onUploadAttemptComplete
    apply List.filter_congr
    intro f hf
    cases h : getIDFromFilename f.name with
    | none => rfl
    | some i =>
      have hix : i ≠ x := by
        intro hxeq
        exact habs (hxeq ▸ mem_storeIDs.mpr ⟨f, hf, h⟩)
      have hcont : succeededIDs.contains i =
          (succeededIDs.filter (fun j => j != x)).contains i := by
        by_cases hmem : i ∈ succeededIDs
        · rw [contains_iff.mpr hmem,
            contains_iff.mpr (List.mem_filter.mpr ⟨hmem, by simp [hix]⟩)]
        · rw [contains_eq_false_of_not_mem hmem,
            contains_eq_false_of_not_mem
              (fun hmem2 => hmem (List.mem_filter.mp hmem2).1)]
      simp only [h]
      rw [hcont]
  · intro f hf i hid hni
    refine mem_onUploadAttemptComplete.mpr ⟨hf, ?_⟩
    simp only [hid, contains_eq_false_of_not_mem hni]
    rfl

/-- C6 witness: acknowledging id 5, absent from a store holding only id 3,
is ignored and leaves the record with id 3 in place. -/
theorem onUploadAttemptComplete_ignores_absent_ids_witness :
    5 ∈ [5] ∧ 5 ∉ storeIDs [mkFile 3 "u" Json.null] ∧
    (onUploadAttemptComplete [5] [mkFile 3 "u" Json.null] =
      onUploadAttemptComplete (List.filter (fun i => i != 5) [5])
        [mkFile 3 "u" Json.null] ∧
    (∀ f ∈ [mkFile 3 "u" Json.null], ∀ i, getIDFromFilename f.name = some i →
      i ∉ [5] → f ∈ onUploadAttemptComplete [5] [mkFile 3 "u" Json.null])) :=
  ⟨by decide, by decide,
    onUploadAttemptComplete_ignores_absent_ids [5] _ 5 (by decide) (by decide)⟩

/-- C2: for every store holding 10 records with ids 1..10 (in any
insertion order), acknowledging `{2,4,6,8,10}` leaves exactly the records
with ids `{1,3,5,7,9}` present and untouched: the remaining record ids are
a permutation of `[1,3,5,7,9]`, every remaining file was already stored,
every deleted file had an acknowledged id, and every record with an
unacknowledged id is left in place. -/
theorem ack_evens_leaves_odds (s : StoreState)
    (h : (storeIDs s).Perm [1, 2, 3, 4, 5, 6, 7, 8, 9, 10]) :
    (storeIDs (onUploadAttemptComplete [2, 4, 6, 8, 10] s)).Perm
      [1, 3, 5, 7, 9] ∧
    (∀ f ∈ onUploadAttemptComplete [2, 4, 6, 8, 10] s, f ∈ s) ∧
    (∀ f ∈ s, f ∉ onUploadAttemptComplete [2, 4, 6, 8, 10] s →
      ∃ i, getIDFromFilename f.name = some i ∧ i ∈ [2, 4, 6, 8, 10]) ∧
    (∀ f ∈ s, ∀ i, getIDFromFilename f.name = some i →
      i ∉ [2, 4, 6, 8, 10] →
      f ∈ onUploadAttemptComplete [2, 4, 6, 8, 10] s) := by
  refine ⟨?_, ?_, ?_, ?_⟩
  · rw [storeIDs_onUploadAttemptComplete]
    have hp := List.Perm.filter
      (fun i => !([2, 4, 6, 8, 10].contains i)) h
    have hcalc : List.filter (fun i => !([2, 4, 6, 8, 10].contains i))
        [1, 2, 3, 4, 5, 6, 7, 8, 9, 10] = [1, 3, 5, 7, 9] := rfl
    rw [hcalc] at hp
    exact hp
  · intro f hf
    exact (mem_onUploadAttemptComplete.mp hf).1
  · intro f hf hnot
    cases hid : getIDFromFilename f.name with
    | none =>
      exact absurd (mem_onUploadAttemptComplete.mpr ⟨hf, by simp [hid]⟩) hnot
    | some i =>
      refine ⟨i, rfl, ?_⟩
      by_cases hc : i ∈ [2, 4, 6, 8, 10]
      · exact hc
      · refine absurd (mem_onUploadAttemptComplete.mpr ⟨hf, ?_⟩) hnot
        simp only [hid, contains_eq_false_of_not_mem hc]
        rfl
  · intro f hf i hid hni
    refine mem_onUploadAttemptComplete.mpr ⟨hf, ?_⟩
    simp only [hid, contains_eq_false_of_not_mem hni]
    rfl

/-- A store holding ids 1..10, inserted in a shuffled order. -/
def shuffledStore10 : StoreState :=
  [mkFile 7 "url7" Json.null, mkFile 2 "url2" Json.null,
   mkFile 9 "url9" Json.null, mkFile 4 "url4" Json.null,
   mkFile 1 "url1" Json.null, mkFile 6 "url6" Json.null,
   mkFile 3 "url3" Json.null, mkFile 10 "url10" Json.null,
   mkFile 5 "url5" Json.null, mkFile 8 "url8" Json.null]

/-- C2 witness: a concrete store holding ids 1..10 inserted in a shuffled
order, acknowledged at `{2,4,6,8,10}`, keeps exactly the odd ids. -/
theorem ack_evens_leaves_odds_witness :
    (storeIDs shuffledStore10).Perm [1, 2, 3, 4, 5, 6, 7, 8, 9, 10] ∧
    (storeIDs (onUploadAttemptComplete [2, 4, 6, 8, 10]
      shuffledStore10)).Perm [1, 3, 5, 7, 9] :=
  ⟨by decide, (ack_evens_leaves_odds shuffledStore10 (by decide)).1⟩

theorem readPing_pingFile (ping : TelemetryPing) :
    readPing ⟨getPingFile ping.uniqueID, pingFileContents ping⟩ =
      some ⟨ping.urlPath, ping.payload, ping.uniqueID⟩ := by
  have hurl : (pingFileContents ping).getStr KEY_URL_PATH =
      some ping.urlPath := by
    simp [Json.getStr, Json.get, pingFileContents, List.lookup]
  have hpay : (pingFileContents ping).get KEY_PAYLOAD = some ping.payload := by
    have hne : (KEY_PAYLOAD == KEY_URL_PATH) = false := by decide
    simp [Json.get, pingFileContents, List.lookup, hne]
  unfold readPing
  rw [getID_getPingFile, hurl, hpay]

theorem readPing_uniqueID {f : StoredFile} {q : TelemetryPing}
    (h : readPing f = some q) :
    getIDFromFilename f.name = some q.uniqueID := by
  unfold readPing at h
  cases hid : getIDFromFilename f.name with
  | none => rw [hid] at h; exact absurd h (by simp)
  | some i =>
    cases hu : f.content.getStr KEY_URL_PATH with
    | none => rw [hid, hu] at h; exact absurd h (by simp)
    | some url =>
      cases hp : f.content.get KEY_PAYLOAD with
      | none => rw [hid, hu, hp] at h; exact absurd h (by simp)
      | some payload =>
        rw [hid, hu, hp] at h
        have hq : q = ⟨url, payload, i⟩ := (Option.some.inj h).symm
        rw [hq]

/-- C4: for every id, destination and payload, storing the ping into a
store whose filenames are all id-encodings and then enumerating with
`getAllPings` returns exactly one record whose id is the stored id; its
destination and payload equal (deeply) the stored ones. -/
theorem store_then_getAll_exactly_one (ping : TelemetryPing) (s : StoreState)
    (hcanon : ∀ f ∈ s, ∃ i, f.name = getPingFile i) :
    (getAllPings (storePing ping s)).filter
      (fun q => q.uniqueID == ping.uniqueID) =
      [⟨ping.urlPath, ping.payload, ping.uniqueID⟩] := by
  unfold storePing putFile getAllPings
  rw [List.filterMap_append, List.filter_append]
  have hnew : List.filter (fun q => q.uniqueID == ping.uniqueID)
      (List.filterMap readPing
        [⟨getPingFile ping.uniqueID, pingFileContents ping⟩]) =
      [⟨ping.urlPath, ping.payload, ping.uniqueID⟩] := by
    rw [List.filterMap_cons]
    rw [readPing_pingFile ping]
    simp
  have hold : List.filter (fun q => q.uniqueID == ping.uniqueID)
      (List.filterMap readPing
        (List.filter (fun f => f.name != getPingFile ping.uniqueID) s)) =
      [] := by
    rw [List.filter_eq_nil_iff]
    intro q hq
    obtain ⟨f, hfmem, hfread⟩ := List.mem_filterMap.mp hq
    obtain ⟨hfs, hfname⟩ := List.mem_filter.mp hfmem
    obtain ⟨j, hj⟩ := hcanon f hfs
    have hqid : getIDFromFilename f.name = some q.uniqueID :=
      readPing_uniqueID hfread
    rw [hj, getID_getPingFile] at hqid
    have hjq : j = q.uniqueID := Option.some.inj hqid
    have hne : j ≠ ping.uniqueID := by
      intro heq
      rw [hj, heq] at hfname
      simp at hfname
    intro hbeq
    exact hne (hjq.trans (by simpa using hbeq))
  rw [hnew, hold]
  rfl

/-- C4 witness: storing the test's ping (id 48679, payload with three
fields) into an empty store and enumerating returns exactly that record. -/
theorem store_then_getAll_exactly_one_witness :
    (∀ f ∈ ([] : StoreState), ∃ i, f.name = getPingFile i) ∧
    (getAllPings (storePing ⟨"a/server/url",
        Json.obj [("str", Json.str "a String"), ("int", Json.num 42),
          ("null", Json.null)], 48679⟩ [])).filter
      (fun q => q.uniqueID == 48679) =
      [⟨"a/server/url", Json.obj [("str", Json.str "a String"),
        ("int", Json.num 42), ("null", Json.null)], 48679⟩] :=
  ⟨by simp, store_then_getAll_exactly_one ⟨"a/server/url",
    Json.obj [("str", Json.str "a String"), ("int", Json.num 42),
      ("null", Json.null)], 48679⟩ [] (by simp)⟩

/-- C10: the store's observable state is exactly the directory contents: a
record file created directly on disk at `getPingFile id` (without
`storePing`) gives the same state `storePing` would have produced, its
record is returned by `getAllPings`, it is counted among the record ids
(the count `maybePrunePings` uses), and `onUploadAttemptComplete` on its
id removes it. -/
theorem direct_file_write_equals_store (id : Nat) (url : String)
    (payload : Json) (s : StoreState)
    (hfresh : ∀ f ∈ s, f.name ≠ getPingFile id) :
    s ++ [mkFile id url payload] = storePing ⟨url, payload, id⟩ s ∧
    (⟨url, payload, id⟩ : TelemetryPing) ∈
      getAllPings (s ++ [mkFile id url payload]) ∧
    storeIDs (s ++ [mkFile id url payload]) = storeIDs s ++ [id] ∧
    mkFile id url payload ∉
      onUploadAttemptComplete [id] (s ++ [mkFile id url payload]) := by
  refine ⟨?_, ?_, ?_, ?_⟩
  · unfold storePing putFile
    rw [List.filter_eq_self.mpr (fun f hf => by simpa using hfresh f hf)]
    rfl
  · unfold getAllPings
    rw [List.filterMap_append]
    apply List.mem_append_right
    rw [List.filterMap_cons]
    rw [show readPing (mkFile id url payload) =
      some ⟨url, payload, id⟩ from readPing_pingFile ⟨url, payload, id⟩]
    exact List.mem_singleton.mpr rfl
  · unfold storeIDs
    rw [List.filterMap_append]
    congr 1
    rw [List.filterMap_cons]
    rw [show getIDFromFilename (mkFile id url payload).name = some id from
      getID_getPingFile id]
    rfl
  · intro hmem
    have h2 := (mem_onUploadAttemptComplete.mp hmem).2
    rw [show getIDFromFilename (mkFile id url payload).name = some id from
      getID_getPingFile id] at h2
    simp at h2

/-- C10 witness: a file for id 7 placed directly next to an existing
record with id 3 behaves exactly as a stored record. -/
theorem direct_file_write_equals_store_witness :
    (∀ f ∈ [mkFile 3 "u3" Json.null], f.name ≠ getPingFile 7) ∧
    ([mkFile 3 "u3" Json.null] ++ [mkFile 7 "u7" Json.null] =
      storePing ⟨"u7", Json.null, 7⟩ [mkFile 3 "u3" Json.null] ∧
    (⟨"u7", Json.null, 7⟩ : TelemetryPing) ∈
      getAllPings ([mkFile 3 "u3" Json.null] ++ [mkFile 7 "u7" Json.null])) :=
  ⟨by decide, by
    have h := direct_file_write_equals_store 7 "u7" Json.null
      [mkFile 3 "u3" Json.null] (by decide)
    exact ⟨h.1, h.2.1⟩⟩

/-- Modelled from the spec: the store's mutating operations (insert,
prune-to-capacity, ack-remove). -/
inductive StoreOp where
  | store (ping : TelemetryPing) : StoreOp
  | prune (maxCount : Nat) : StoreOp
  | ack (succeededIDs : List Nat) : StoreOp

/-- One operation applied to the store state. -/
def applyOp (s : StoreState) : StoreOp → StoreState
  | .store ping => storePing ping s
  | .prune maxCount => maybePrunePings maxCount s
  | .ack succeededIDs => onUploadAttemptComplete succeededIDs s

/-- A sequence of operations applied in order. -/
def applyOps (s : StoreState) (ops : List StoreOp) : StoreState :=
  ops.foldl applyOp s

/-- Every filename of the state is the encoding of some id. -/
def canonicalNames (s : StoreState) : Prop :=
  ∀ f ∈ s, ∃ i, f.name = getPingFile i

/-- Well-formedness of a store state: filenames are id encodings and the
decoded ids are pairwise distinct (one file per record). -/
def WF (s : StoreState) : Prop :=
  canonicalNames s ∧ (storeIDs s).Nodup

theorem mem_maybePrunePings_subset {m : Nat} {s : StoreState}
    {f : StoredFile} (h : f ∈ maybePrunePings m s) : f ∈ s := by
  unfold maybePrunePings at h
  by_cases hle : (storeIDs s).length ≤ m
  · rw [if_pos hle] at h
    exact h
  · rw [if_neg hle] at h
    exact (List.mem_filter.mp h).1

theorem canonicalNames_storePing {ping : TelemetryPing} {s : StoreState}
    (h : canonicalNames s) : canonicalNames (storePing ping s) := by
  intro f hf
  rcases List.mem_append.mp hf with hf | hf
  · exact h f (List.mem_filter.mp hf).1
  · exact ⟨ping.uniqueID, by simp at hf; rw [hf]⟩

theorem storeIDs_storePing (ping : TelemetryPing) (s : StoreState) :
    storeIDs (storePing ping s) =
      storeIDs (s.filter (fun f => f.name != getPingFile ping.uniqueID)) ++
        [ping.uniqueID] := by
  unfold storePing putFile storeIDs
  rw [List.filterMap_append]
  congr 1
  rw [List.filterMap_cons]
  rw [show getIDFromFilename (getPingFile ping.uniqueID) =
    some ping.uniqueID from getID_getPingFile ping.uniqueID]
  rfl

theorem WF_storePing {ping : TelemetryPing} {s : StoreState} (h : WF s) :
    WF (storePing ping s) := by
  obtain ⟨hcanon, hnodup⟩ := h
  refine ⟨canonicalNames_storePing hcanon, ?_⟩
  rw [storeIDs_storePing]
  rw [List.nodup_append]
  refine ⟨?_, List.nodup_singleton _, ?_⟩
  · exact List.Nodup.sublist
      (List.Sublist.filterMap _ (List.filter_sublist s)) hnodup
  · intro i hi
    obtain ⟨f, hfmem, hfid⟩ := mem_storeIDs.mp hi
    obtain ⟨hfs, hfname⟩ := List.mem_filter.mp hfmem
    obtain ⟨j, hj⟩ := hcanon f hfs
    rw [hj, getID_getPingFile] at hfid
    intro him
    simp at him
    rw [him] at hfid
    have : j = ping.uniqueID := Option.some.inj hfid
    rw [hj, this] at hfname
    simp at hfname

theorem WF_onUploadAttemptComplete {succ : List Nat} {s : StoreState}
    (h : WF s) : WF (onUploadAttemptComplete succ s) := by
  obtain ⟨hcanon, hnodup⟩ := h
  constructor
  · intro f hf
    exact hcanon f (mem_onUploadAttemptComplete.mp hf).1
  · rw [storeIDs_onUploadAttemptComplete]
    exact List.Nodup.filter _ hnodup

theorem WF_maybePrunePings {m : Nat} {s : StoreState} (h : WF s) :
    WF (maybePrunePings m s) := by
  obtain ⟨hcanon, hnodup⟩ := h
  unfold maybePrunePings
  by_cases hle : (storeIDs s).length ≤ m
  · rw [if_pos hle]
    exact ⟨hcanon, hnodup⟩
  · rw [if_neg hle]
    constructor
    · intro f hf
      exact hcanon f (List.mem_filter.mp hf).1
    · rw [storeIDs_filter_decode]
      exact List.Nodup.filter _ hnodup

theorem WF_applyOp {s : StoreState} (op : StoreOp) (h : WF s) :
    WF (applyOp s op) := by
  cases op with
  | store ping => exact WF_storePing h
  | prune maxCount => exact WF_maybePrunePings h
  | ack succeededIDs => exact WF_onUploadAttemptComplete h

theorem WF_applyOps (ops : List StoreOp) :
    ∀ s : StoreState, WF s → WF (applyOps s ops) := by
  induction ops with
  | nil => intro s h; exact h
  | cons op rest ih =>
    intro s h
    exact ih (applyOp s op) (WF_applyOp op h)

theorem storeIDs_length_of_canonical {s : StoreState}
    (h : canonicalNames s) : (storeIDs s).length = s.length := by
  induction s with
  | nil => rfl
  | cons f t ih =>
    obtain ⟨i, hi⟩ := h f (by simp)
    rw [show storeIDs (f :: t) = i :: storeIDs t by
      simp [storeIDs, List.filterMap_cons, hi, getID_getPingFile]]
    simp [ih (fun g hg => h g (by simp [hg]))]

theorem storePing_fresh {ping : TelemetryPing} {s : StoreState}
    (hcanon : canonicalNames s) (hfresh : ping.uniqueID ∉ storeIDs s) :
    storePing ping s =
      s ++ [⟨getPingFile ping.uniqueID, pingFileContents ping⟩] := by
  unfold storePing putFile
  rw [List.filter_eq_self.mpr]
  intro f hf
  obtain ⟨j, hj⟩ := hcanon f hf
  have hji : j ≠ ping.uniqueID := by
    intro heq
    exact hfresh (heq ▸ mem_storeIDs.mpr ⟨f, hf, by
      rw [hj]; exact getID_getPingFile j⟩)
  rw [hj]
  simp only [bne_iff_ne, ne_eq]
  intro hcontra
  exact hji (getPingFile_injective hcontra)

theorem applyOps_store_all (pings : List TelemetryPing) :
    ∀ s : StoreState, canonicalNames s →
    (∀ p ∈ pings, p.uniqueID ∉ storeIDs s) →
    (pings.map TelemetryPing.uniqueID).Nodup →
    (applyOps s (pings.map StoreOp.store)).length = s.length + pings.length ∧
    storeIDs (applyOps s (pings.map StoreOp.store)) =
      storeIDs s ++ pings.map TelemetryPing.uniqueID := by
  induction pings with
  | nil => intro s _ _ _; simp [applyOps]
  | cons p ps ih =>
    intro s hcanon hfresh hnodup
    have hstep : applyOps s ((p :: ps).map StoreOp.store) =
        applyOps (storePing p s) (ps.map StoreOp.store) := rfl
    have hsp : storePing p s =
        s ++ [⟨getPingFile p.uniqueID, pingFileContents p⟩] :=
      storePing_fresh hcanon (hfresh p (by simp))
    have hids : storeIDs (storePing p s) = storeIDs s ++ [p.uniqueID] := by
      rw [hsp]
      unfold storeIDs
      rw [List.filterMap_append]
      congr 1
      rw [List.filterMap_cons,
        show getIDFromFilename (getPingFile p.uniqueID) = some p.uniqueID
          from getID_getPingFile p.uniqueID]
      rfl
    have hcanon1 : canonicalNames (storePing p s) := by
      rw [hsp]
      intro f hf
      rcases List.mem_append.mp hf with hf | hf
      · exact hcanon f hf
      · exact ⟨p.uniqueID, by simp at hf; rw [hf]⟩
    have hfresh1 : ∀ q ∈ ps, q.uniqueID ∉ storeIDs (storePing p s) := by
      intro q hq
      rw [hids]
      intro hmem
      rcases List.mem_append.mp hmem with hmem | hmem
      · exact hfresh q (by simp [hq]) hmem
      · simp at hmem
        have : p.uniqueID ∉ ps.map TelemetryPing.uniqueID :=
          (List.nodup_cons.mp (by simpa using hnodup)).1
        exact this (hmem ▸ List.mem_map_of_mem TelemetryPing.uniqueID hq)
    have hnodup1 : (ps.map TelemetryPing.uniqueID).Nodup :=
      (List.nodup_cons.mp (by simpa using hnodup)).2
    obtain ⟨hlen, hids2⟩ :=
      ih (storePing p s) hcanon1 hfresh1 hnodup1
    rw [hstep]
    constructor
    · rw [hlen, hsp]
      simp
      omega
    · rw [hids2, hids]
      simp

/-- C9: after every sequence of store, prune, and acknowledge operations
on a well-formed store, exactly one file exists per currently-stored
record (every filename encodes an id, the decoded ids are pairwise
distinct, and the file count equals the record count); and inserting N
records with pairwise-distinct ids into an empty store yields exactly N
files whose decoded ids are those N pairwise-distinct ids. -/
theorem one_file_per_record_invariant :
    (∀ (s : StoreState) (ops : List StoreOp), WF s →
      WF (applyOps s ops) ∧
      (storeIDs (applyOps s ops)).length = (applyOps s ops).length) ∧
    (∀ pings : List TelemetryPing,
      (pings.map TelemetryPing.uniqueID).Nodup →
      (applyOps [] (pings.map StoreOp.store)).length = pings.length ∧
      storeIDs (applyOps [] (pings.map StoreOp.store)) =
        pings.map TelemetryPing.uniqueID ∧
      (storeIDs (applyOps [] (pings.map StoreOp.store))).Nodup) := by
  constructor
  · intro s ops h
    have hwf := WF_applyOps ops s h
    exact ⟨hwf, storeIDs_length_of_canonical hwf.1⟩
  · intro pings hnodup
    obtain ⟨hlen, hids⟩ := applyOps_store_all pings []
      (fun f hf => absurd hf (List.not_mem_nil f))
      (fun p _ hmem => absurd hmem (List.not_mem_nil p.uniqueID))
      hnodup
    refine ⟨by simpa using hlen, by simpa using hids, ?_⟩
    rw [show storeIDs (applyOps [] (pings.map StoreOp.store)) =
      pings.map TelemetryPing.uniqueID by simpa using hids]
    exact hnodup

/-- C9 witness: storing two records with distinct ids 1 and 2 in an empty
store yields two files with decoded ids `[1, 2]`, and a subsequent prune
and acknowledge keep the state well-formed. -/
theorem one_file_per_record_invariant_witness :
    (WF ([] : StoreState) ∧
      WF (applyOps [] [StoreOp.store ⟨"a", Json.null, 1⟩,
        StoreOp.prune 5, StoreOp.ack [2]])) ∧
    (([⟨"a", Json.null, 1⟩, ⟨"b", Json.null, 2⟩] :
        List TelemetryPing).map TelemetryPing.uniqueID).Nodup ∧
    (applyOps [] (([⟨"a", Json.null, 1⟩, ⟨"b", Json.null, 2⟩] :
        List TelemetryPing).map StoreOp.store)).length = 2 ∧
    storeIDs (applyOps [] (([⟨"a", Json.null, 1⟩, ⟨"b", Json.null, 2⟩] :
        List TelemetryPing).map StoreOp.store)) = [1, 2] := by
  have hwfnil : WF ([] : StoreState) :=
    ⟨fun f hf => absurd hf (List.not_mem_nil f), List.nodup_nil⟩
  have h2 := (one_file_per_record_invariant.2
    [⟨"a", Json.null, 1⟩, ⟨"b", Json.null, 2⟩] (by decide))
  exact ⟨⟨hwfnil, ((one_file_per_record_invariant.1 []
      [StoreOp.store ⟨"a", Json.null, 1⟩, StoreOp.prune 5,
        StoreOp.ack [2]]) hwfnil).1⟩,
    by decide, h2.1, h2.2.1⟩

theorem pingFileContents_getStr (ping : TelemetryPing) :
    (pingFileContents ping).getStr KEY_URL_PATH = some ping.urlPath := by
  simp [Json.getStr, Json.get, pingFileContents, List.lookup]

theorem pingFileContents_getPayload (ping : TelemetryPing) :
    (pingFileContents ping).get KEY_PAYLOAD = some ping.payload := by
  have hne : (KEY_PAYLOAD == KEY_URL_PATH) = false := by decide
  simp [Json.get, pingFileContents, List.lookup, hne]

theorem contents_shape_preserved (ops : List StoreOp) :
    ∀ s : StoreState, (∀ f ∈ s, ∃ ping, f.content = pingFileContents ping) →
    ∀ f ∈ applyOps s ops, ∃ ping, f.content = pingFileContents ping := by
  induction ops with
  | nil => intro s h; exact h
  | cons op rest ih =>
    intro s h
    apply ih
    intro f hf
    cases op with
    | store ping =>
      rcases List.mem_append.mp hf with hf | hf
      · exact h f (List.mem_filter.mp hf).1
      · simp at hf
        rw [hf]
        exact ⟨ping, rfl⟩
    | prune maxCount => exact h f (mem_maybePrunePings_subset hf)
    | ack succeededIDs => exact h f (mem_onUploadAttemptComplete.mp hf).1

/-- C7: every record stored through the store's operations has as file
content a structured document with at least two named fields: a
destination-path string (under `KEY_URL_PATH`) and a payload sub-document
(under `KEY_PAYLOAD`). -/
theorem stored_contents_structured (ops : List StoreOp) (s : StoreState)
    (hinit : ∀ f ∈ s, ∃ ping, f.content = pingFileContents ping) :
    ∀ f ∈ applyOps s ops, ∃ fields, f.content = Json.obj fields ∧
      2 ≤ fields.length ∧
      (∃ url, f.content.getStr KEY_URL_PATH = some url) ∧
      (∃ payload, f.content.get KEY_PAYLOAD = some payload) := by
  intro f hf
  obtain ⟨ping, hping⟩ := contents_shape_preserved ops s hinit f hf
  refine ⟨[(KEY_URL_PATH, Json.str ping.urlPath),
    (KEY_PAYLOAD, ping.payload)], by rw [hping]; rfl, by simp,
    ⟨ping.urlPath, ?_⟩, ⟨ping.payload, ?_⟩⟩
  · rw [hping]
    exact pingFileContents_getStr ping
  · rw [hping]
    exact pingFileContents_getPayload ping

/-- C7 witness: the file produced by storing one ping in an empty store is
a two-field document with the destination path and the payload. -/
theorem stored_contents_structured_witness :
    (∀ f ∈ ([] : StoreState), ∃ ping, f.content = pingFileContents ping) ∧
    mkFile 7 "u" Json.null ∈
      applyOps [] [StoreOp.store ⟨"u", Json.null, 7⟩] ∧
    (∃ fields, (mkFile 7 "u" Json.null).content = Json.obj fields ∧
      2 ≤ fields.length ∧
      (∃ url, (mkFile 7 "u" Json.null).content.getStr KEY_URL_PATH =
        some url) ∧
      (∃ payload, (mkFile 7 "u" Json.null).content.get KEY_PAYLOAD =
        some payload)) := by
  have hmem : mkFile 7 "u" Json.null ∈
      applyOps [] [StoreOp.store ⟨"u", Json.null, 7⟩] := by
    show mkFile 7 "u" Json.null ∈ [mkFile 7 "u" Json.null]
    exact List.mem_singleton.mpr rfl
  exact ⟨by simp, hmem,
    stored_contents_structured [StoreOp.store ⟨"u", Json.null, 7⟩] []
      (by simp) (mkFile 7 "u" Json.null) hmem⟩

theorem filter_not_mem_prefix (A B : List Nat) (h : (A ++ B).Nodup) :
    (A ++ B).filter (fun i => !(A.contains i)) = B := by
  rw [List.filter_append]
  have hA : A.filter (fun i => !(A.contains i)) = [] := by
    rw [List.filter_eq_nil_iff]
    intro a ha
    simpa using ha
  have hB : B.filter (fun i => !(A.contains i)) = B := by
    rw [List.filter_eq_self]
    intro a ha
    have hna : a ∉ A := fun hamem => (List.nodup_append.mp h).2.2 hamem ha
    simpa using hna
  rw [hA, hB]
  rfl

/-- C3: for every well-formed store whose record count exceeds
`maxCount`, pruning deletes exactly `count - maxCount` records, choosing
the smallest ids first: afterwards exactly `maxCount` records remain,
every remaining record existed before, and every deleted record id is
strictly smaller than every remaining record id (the survivors are the
`maxCount` records with the largest ids); the remaining ids are exactly
the sorted id list with its `count - maxCount` smallest entries dropped. -/
theorem prune_above_max_keeps_largest (maxCount : Nat) (s : StoreState)
    (hnd : (storeIDs s).Nodup)
    (hgt : maxCount < (storeIDs s).length) :
    (storeIDs (maybePrunePings maxCount s)).length = maxCount ∧
    (storeIDs (maybePrunePings maxCount s)).Perm
      ((List.insertionSort (· ≤ ·) (storeIDs s)).drop
        ((storeIDs s).length - maxCount)) ∧
    (∀ r ∈ storeIDs (maybePrunePings maxCount s), r ∈ storeIDs s) ∧
    (∀ d ∈ storeIDs s, d ∉ storeIDs (maybePrunePings maxCount s) →
      ∀ r ∈ storeIDs (maybePrunePings maxCount s), d < r) := by
  have hnle : ¬ (storeIDs s).length ≤ maxCount := not_le.mpr hgt
  have hres : storeIDs (maybePrunePings maxCount s) =
      (storeIDs s).filter (fun i =>
        !(((List.insertionSort (· ≤ ·) (storeIDs s)).take
          ((storeIDs s).length - maxCount)).contains i)) := by
    have hbranch : maybePrunePings maxCount s =
        s.filter (fun f =>
          match getIDFromFilename f.name with
          | some id =>
            !(((List.insertionSort (· ≤ ·) (storeIDs s)).take
              ((storeIDs s).length - maxCount)).contains id)
          | none => true) := by
      simp only [maybePrunePings]
      rw [if_neg hnle]
    rw [hbranch]
    exact storeIDs_filter_decode _ s
  have hperm : (List.insertionSort (· ≤ ·) (storeIDs s)).Perm (storeIDs s) :=
    List.perm_insertionSort _ _
  have hnds : (List.insertionSort (· ≤ ·) (storeIDs s)).Nodup :=
    hperm.nodup_iff.mpr hnd
  have hsplit : (List.insertionSort (· ≤ ·) (storeIDs s)).take
        ((storeIDs s).length - maxCount) ++
      (List.insertionSort (· ≤ ·) (storeIDs s)).drop
        ((storeIDs s).length - maxCount) =
      List.insertionSort (· ≤ ·) (storeIDs s) :=
    List.take_append_drop _ _
  have hndsplit : ((List.insertionSort (· ≤ ·) (storeIDs s)).take
        ((storeIDs s).length - maxCount) ++
      (List.insertionSort (· ≤ ·) (storeIDs s)).drop
        ((storeIDs s).length - maxCount)).Nodup := by
    rw [hsplit]
    exact hnds
  have hdisj : ∀ a ∈ (List.insertionSort (· ≤ ·) (storeIDs s)).take
        ((storeIDs s).length - maxCount),
      a ∉ (List.insertionSort (· ≤ ·) (storeIDs s)).drop
        ((storeIDs s).length - maxCount) :=
    (List.nodup_append.mp hndsplit).2.2
  have hcomb : (List.insertionSort (· ≤ ·) (storeIDs s)).filter (fun i =>
        !(((List.insertionSort (· ≤ ·) (storeIDs s)).take
          ((storeIDs s).length - maxCount)).contains i)) =
      (List.insertionSort (· ≤ ·) (storeIDs s)).drop
        ((storeIDs s).length - maxCount) := by
    have h2 := filter_not_mem_prefix
      ((List.insertionSort (· ≤ ·) (storeIDs s)).take
        ((storeIDs s).length - maxCount))
      ((List.insertionSort (· ≤ ·) (storeIDs s)).drop
        ((storeIDs s).length - maxCount)) hndsplit
    have h3 := congrArg (List.filter (fun i =>
      !(((List.insertionSort (· ≤ ·) (storeIDs s)).take
        ((storeIDs s).length - maxCount)).contains i))) hsplit
    rw [← h3]
    exact h2
  have hpermR : (storeIDs (maybePrunePings maxCount s)).Perm
      ((List.insertionSort (· ≤ ·) (storeIDs s)).drop
        ((storeIDs s).length - maxCount)) := by
    rw [hres]
    have h1 := (hperm.symm).filter (fun i =>
      !(((List.insertionSort (· ≤ ·) (storeIDs s)).take
        ((storeIDs s).length - maxCount)).contains i))
    rw [hcomb] at h1
    exact h1
  have hlensorted : (List.insertionSort (· ≤ ·) (storeIDs s)).length =
      (storeIDs s).length := hperm.length_eq
  refine ⟨?_, hpermR, ?_, ?_⟩
  · rw [hpermR.length_eq, List.length_drop, hlensorted]
    omega
  · intro r hr
    rw [hres] at hr
    exact (List.mem_filter.mp hr).1
  · intro d hd hdnot r hr
    have hdtake : d ∈ (List.insertionSort (· ≤ ·) (storeIDs s)).take
        ((storeIDs s).length - maxCount) := by
      by_cases hc : d ∈ (List.insertionSort (· ≤ ·) (storeIDs s)).take
          ((storeIDs s).length - maxCount)
      · exact hc
      · exfalso
        apply hdnot
        rw [hres]
        exact List.mem_filter.mpr ⟨hd, by simpa using hc⟩
    have hrdrop : r ∈ (List.insertionSort (· ≤ ·) (storeIDs s)).drop
        ((storeIDs s).length - maxCount) := hpermR.mem_iff.mp hr
    have hsort : List.Sorted (· ≤ ·)
        (List.insertionSort (· ≤ ·) (storeIDs s)) :=
      List.sorted_insertionSort _ _
    have hsortsplit : List.Pairwise (· ≤ ·)
        ((List.insertionSort (· ≤ ·) (storeIDs s)).take
            ((storeIDs s).length - maxCount) ++
          (List.insertionSort (· ≤ ·) (storeIDs s)).drop
            ((storeIDs s).length - maxCount)) := by
      rw [hsplit]
      exact hsort
    have hle : d ≤ r :=
      (List.pairwise_append.mp hsortsplit).2.2 d hdtake r hrdrop
    have hne : d ≠ r := by
      intro heq
      exact hdisj d hdtake (heq ▸ hrdrop)
    omega

/-- C3 witness: a store with records 2, 1, 3 pruned at capacity 2 keeps
exactly two records. -/
theorem prune_above_max_keeps_largest_witness :
    (storeIDs [mkFile 2 "a" Json.null, mkFile 1 "b" Json.null,
      mkFile 3 "c" Json.null]).Nodup ∧
    2 < (storeIDs [mkFile 2 "a" Json.null, mkFile 1 "b" Json.null,
      mkFile 3 "c" Json.null]).length ∧
    (storeIDs (maybePrunePings 2 [mkFile 2 "a" Json.null,
      mkFile 1 "b" Json.null, mkFile 3 "c" Json.null])).length = 2 :=
  ⟨by decide, by decide,
    (prune_above_max_keeps_largest 2 [mkFile 2 "a" Json.null,
      mkFile 1 "b" Json.null, mkFile 3 "c" Json.null]
      (by decide) (by decide)).1⟩
